import Mathlib

/-!
Verification development for `scripts/exploratory_data_analyzer.py`: a shallow
embedding of the `EDAAnalyzer` class over an explicit tabular data model.

A dataframe is a list of named, typed columns; a cell is either missing (`na`,
modelling NaN/None), a rational number (modelling a numeric entry), or a
string.  Pandas/numpy primitives used by the source (`quantile`, `qcut`,
`isna().mean()`, `skew`, `groupby(...).size()`, ...) are embedded by their
documented exact semantics; floating-point values are idealised as `ℚ` (and
`ℝ` where square roots occur).
-/

/-- One cell of a dataframe: missing (NaN/None), numeric, or string. -/
inductive Cell where
  | na  : Cell
  | num : ℚ → Cell
  | str : String → Cell
deriving DecidableEq

/-- The dtype of a column, deciding membership in `_get_numeric_data()`. -/
inductive Dtype where
  | numeric : Dtype
  | object  : Dtype
deriving DecidableEq

/-- A named column with its dtype and cells (one per row). -/
structure Col where
  name  : String
  dtype : Dtype
  cells : List Cell
deriving DecidableEq

/-- A dataframe: an ordered list of columns (pandas keeps all columns the same
length; theorems that need this state it as a hypothesis). -/
structure DataFrame where
  cols : List Col
deriving DecidableEq

/-- Column lookup by name, as `self.data[name]` / `groupby(by=name)`: `none`
models the `KeyError` case. -/
def DataFrame.getCol (df : DataFrame) (s : String) : Option Col :=
  df.cols.find? (fun c => c.name == s)

/-- The column names of a dataframe. -/
def DataFrame.colNames (df : DataFrame) : List String :=
  df.cols.map Col.name

/-- `self.data._get_numeric_data()`: the columns of numeric dtype. -/
def DataFrame.numericCols (df : DataFrame) : List Col :=
  df.cols.filter (fun c => c.dtype == Dtype.numeric)

/-- The row count (`shape[0]`): length shared by all columns. -/
def DataFrame.nrows (df : DataFrame) : ℕ :=
  ((df.cols.head?).map (fun c => c.cells.length)).getD 0

/-- A numeric cell as an optional rational (NaN and non-numeric map to `none`;
numeric columns only hold `na` and `num` cells). -/
def cellToOpt : Cell → Option ℚ
  | .num q => some q
  | _ => none

/-- The values of a column as optional rationals. -/
def Col.optValues (c : Col) : List (Option ℚ) :=
  c.cells.map cellToOpt

/-- Drop missing values, as pandas reductions do before computing. -/
def dropna (l : List (Option ℚ)) : List ℚ :=
  l.filterMap id

/-- The present (non-missing) values of a column. -/
def Col.presentVals (c : Col) : List ℚ :=
  dropna c.optValues

/-- Ascending sort of rationals (the order pandas sorts values in before
interpolating quantiles). -/
def sortQ (l : List ℚ) : List ℚ :=
  l.insertionSort (· ≤ ·)

/-- Linear interpolation into a sorted list at a fractional position, exactly
as numpy's `linear` quantile method: with `i = ⌊pos⌋` and `j` its successor
clamped to the last index, the value is `s[i] + (pos - i) * (s[j] - s[i])`. -/
def interp (s : List ℚ) (pos : ℚ) : ℚ :=
  let i : ℕ := (⌊pos⌋).toNat
  let j : ℕ := min (i + 1) (s.length - 1)
  let a := s.getD i 0
  let b := s.getD j 0
  a + (pos - (i : ℚ)) * (b - a)

/-- `Series.quantile(q)`: drop NaN, sort, interpolate at `q * (n - 1)`;
`none` models the NaN returned on an empty (all-missing) column. -/
def quantileOf (l : List (Option ℚ)) (q : ℚ) : Option ℚ :=
  let s := sortQ (dropna l)
  if s.length = 0 then none
  else some (interp s (q * ((s.length : ℚ) - 1)))

/-- `lower_bound = quartile_one - 1.5 * iqr` from `count_outliers` (NaN when
the column has no present values, since NaN propagates). -/
def colLowerBound (c : Col) : Option ℚ :=
  match quantileOf c.optValues (1/4), quantileOf c.optValues (3/4) with
  | some q1, some q3 => some (q1 - 3/2 * (q3 - q1))
  | _, _ => none

/-- `upper_bound = quartile_three + 1.5 * iqr` from `count_outliers`. -/
def colUpperBound (c : Col) : Option ℚ :=
  match quantileOf c.optValues (1/4), quantileOf c.optValues (3/4) with
  | some q1, some q3 => some (q3 + 3/2 * (q3 - q1))
  | _, _ => none

/-- `self.data[column] < lower_bound[column]`: a NaN bound or a missing cell
compares false, as in pandas. -/
def cellBelow (x : Cell) (b : Option ℚ) : Bool :=
  match x, b with
  | .num v, some l => decide (v < l)
  | _, _ => false

/-- `self.data[column] > upper_bound[column]`, with the same NaN semantics. -/
def cellAbove (x : Cell) (b : Option ℚ) : Bool :=
  match x, b with
  | .num v, some u => decide (u < v)
  | _, _ => false

/-- The per-column outlier count of `count_outliers`: the number of rows kept
by the filter `(col < lower) | (col > upper)`. -/
def colOutlierCount (c : Col) : ℕ :=
  c.cells.countP (fun x => cellBelow x (colLowerBound c) || cellAbove x (colUpperBound c))

/-- `count_outliers`: one `(column, count)` row per numeric column, sorted
ascending by count (`sort_values(by='Num. of Outliers')`); the bar annotations
read back exactly these counts. -/
def count_outliers (df : DataFrame) : List (String × ℕ) :=
  (df.numericCols.map (fun c => (c.name, colOutlierCount c))).insertionSort
    (fun p q => p.2 ≤ q.2)

/-- The indicator summed by `isna().mean()`. -/
def isnaIndicator (x : Cell) : ℚ :=
  if x = Cell.na then 1 else 0

/-- `self.data.isna().mean()` for one column: the mean of the missingness
indicator over the column's rows. -/
def isnaMean (c : Col) : ℚ :=
  (c.cells.map isnaIndicator).sum / (c.cells.length : ℚ)

/-- `missing_values`: percentages of missing rows per column, keeping only the
columns where the percentage is strictly positive (`missing[missing > 0]`). -/
def missing_values (df : DataFrame) : List (String × ℚ) :=
  (df.cols.map (fun c => (c.name, isnaMean c * 100))).filter (fun p => decide (0 < p.2))

/-- `pd.qcut(..., q=10, duplicates='drop', retbins=True)` bin edges: the
quantiles of the data at `0, 1/10, ..., 1`, with duplicate edges dropped
(`dedup` keeps one copy of each value without reordering a sorted list). -/
def qcutEdges (l : List ℚ) : List ℚ :=
  if l.length = 0 then []
  else ((List.range 11).map
    (fun i : ℕ => interp (sortQ l) ((i : ℚ) / 10 * ((l.length : ℚ) - 1)))).dedup

/-- `bins.searchsorted(v, side='left')` followed by the `include_lowest`
adjustment `ids[x == bins[0]] = 1` performed by `_bins_to_cuts`. -/
def qcutIds (edges : List ℚ) (v : ℚ) : ℕ :=
  if edges.head? = some v then 1
  else edges.countP (fun e => decide (e < v))

/-- The bin a value falls in: `ids - 1`, with `ids = 0` and `ids = len(bins)`
masked to NaN (no bin), as in `_bins_to_cuts`. -/
def qcutBin (edges : List ℚ) (v : ℚ) : Option ℕ :=
  let ids := qcutIds edges v
  if ids = 0 ∨ ids = edges.length then none else some (ids - 1)

/-- `value_counts().sort_index()` over the qcut categories: per-bin occupancy
in bin order (zero-count bins included, NaN rows in none). -/
def qcutCounts (present : List ℚ) : List ℕ :=
  let edges := qcutEdges present
  (List.range (edges.length - 1)).map
    (fun b => present.countP (fun v => decide (qcutBin edges v = some b)))

/-- Python `int()` applied to a rational: truncation toward zero. -/
def truncQ (q : ℚ) : ℤ :=
  if 0 ≤ q then ⌊q⌋ else ⌈q⌉

/-- One formatted bin label `f"{int(lo)} UGX - {int(hi)} UGX"`. -/
def mkBinLabel (a b : ℤ) : String :=
  toString a ++ " UGX - " ++ toString b ++ " UGX"

/-- The integer-truncated endpoints of bin `i`, before formatting. -/
def binEndpoints (edges : List ℚ) (i : ℕ) : ℤ × ℤ :=
  (truncQ (edges.getD i 0), truncQ (edges.getD (i + 1) 0))

/-- The formatted labels of `fraud_analysis`, one per bin. -/
def binLabels (edges : List ℚ) : List String :=
  (List.range (edges.length - 1)).map
    (fun i => mkBinLabel (binEndpoints edges i).1 (binEndpoints edges i).2)

/-- The uncaught Python exceptions the source can raise. -/
inductive PyErr where
  | keyError (k : String) : PyErr
  | valueError : PyErr
deriving DecidableEq

/-- The size of the fraud subset: rows whose `FraudResult` cell equals `1`
(the group that `get_group(name=1)` selects). -/
def fraudSubsetSize (df : DataFrame) : ℕ :=
  match df.getCol "FraudResult" with
  | some c => c.cells.countP (fun x => decide (x = Cell.num 1))
  | none => 0

/-- The `Amount` cells of the fraud subset (rows with `FraudResult == 1`),
still optional: a fraud row may carry a missing amount. -/
def fraudAmounts (df : DataFrame) : List (Option ℚ) :=
  match df.getCol "FraudResult", df.getCol "Amount" with
  | some f, some a =>
      (f.cells.zip a.cells).filterMap
        (fun p => if p.1 = Cell.num 1 then some (cellToOpt p.2) else none)
  | _, _ => []

/-- The present amounts of the fraud subset (`qcut` and `quantile` drop NaN). -/
def fraudPresent (df : DataFrame) : List ℚ :=
  dropna (fraudAmounts df)

/-- `fraud_analysis`: group by `FraudResult` (KeyError if absent), take group
`1` (KeyError if empty), sort by `Amount` (KeyError if absent; sorting does
not affect the counts), qcut into 10 quantile bins dropping duplicate edges,
rename the categories to the formatted labels (`rename_categories` raises
ValueError on duplicate labels), and count rows per bin in bin order. -/
def fraud_analysisE (df : DataFrame) : Except PyErr (List (String × ℕ)) :=
  match df.getCol "FraudResult" with
  | none => .error (.keyError "FraudResult")
  | some _ =>
    if fraudSubsetSize df = 0 then .error (.keyError "1")
    else
      match df.getCol "Amount" with
      | none => .error (.keyError "Amount")
      | some _ =>
        let present := fraudPresent df
        let edges := qcutEdges present
        let labels := binLabels edges
        if labels.Nodup then .ok (labels.zip (qcutCounts present))
        else .error .valueError

/-- The hardcoded `columns_of_interest` of `categorical_distribution`. -/
def interestCols : List String :=
  ["CurrencyCode", "ProviderId", "ProductCategory", "ChannelId"]

/-- `groupby(by=column).size().sort_values()`: counts of the distinct non-NaN
values of a column, sorted ascending by count; the bar annotations read back
exactly these `(value, count)` pairs. -/
def groupCounts (cells : List Cell) : List (Cell × ℕ) :=
  (((cells.filter (fun x => decide (x ≠ Cell.na))).dedup).map
    (fun k => (k, cells.count k))).insertionSort (fun p q => p.2 ≤ q.2)

/-- The charts drawn by `categorical_distribution`, one per interest column in
order; the first missing column raises KeyError from `groupby`. -/
def categoricalChartsE (df : DataFrame) : List String → Except PyErr (List (String × List (Cell × ℕ)))
  | [] => .ok []
  | c :: rest =>
    match df.getCol c with
    | none => .error (.keyError c)
    | some col =>
      match categoricalChartsE df rest with
      | .error e => .error e
      | .ok r => .ok ((c, groupCounts col.cells) :: r)

/-- `categorical_distribution`: the four charts plus the list of axis indices
deleted by the cleanup loop `for unused in range(idx+1, len(columns_of_interest))`.
The loop variable `idx` is the one leaked by the *inner* `enumerate(sns_plot.patches)`
loop of the last chart (or the outer index `3` if that chart had no bars), not
the outer column index, so the range starts at the last chart's bar count. -/
def categorical_distributionE (df : DataFrame) :
    Except PyErr (List (String × List (Cell × ℕ)) × List ℕ) :=
  match categoricalChartsE df interestCols with
  | .error e => .error e
  | .ok charts =>
    let lastCats := ((charts.getLast?).map (fun ch => ch.2.length)).getD 0
    let finalIdx := if lastCats = 0 then interestCols.length - 1 else lastCats - 1
    .ok (charts, List.range' (finalIdx + 1) (interestCols.length - (finalIdx + 1)))

/-- numpy round-half-even of a real number to an integer (`np.round` with
`decimals=0`): ties between two integers go to the even one; away from a tie
it agrees with ordinary rounding. -/
noncomputable def rhe (x : ℝ) : ℤ :=
  if x - (⌊x⌋ : ℝ) = 1/2 then 2 * round (x / 2) else round x

/-- `.round(decimals=3)` on a real value: scale by `1000`, round half to even,
scale back. -/
noncomputable def round3 (x : ℝ) : ℝ :=
  ((rhe (x * 1000) : ℤ) : ℝ) / 1000

/-- `Series.skew()` for one column, following pandas `nanskew`: over the `n`
present values with mean `μ`, with `S2 = Σ(x-μ)²` and `S3 = Σ(x-μ)³`, the
result is `n·√(n-1)/(n-2) · S3/(S2·√S2)`; it is `0` where `S2 = 0` and NaN
(modelled as `⊤`, which `sort_values` places last) when `n < 3`. -/
noncomputable def skewPandas (l : List (Option ℚ)) : WithTop ℝ :=
  let xs := dropna l
  let n : ℕ := xs.length
  if n < 3 then ⊤
  else
    let μ : ℚ := xs.sum / (n : ℚ)
    let S2 : ℚ := (xs.map (fun x => (x - μ) ^ 2)).sum
    let S3 : ℚ := (xs.map (fun x => (x - μ) ^ 3)).sum
    if S2 = 0 then ((0 : ℝ) : WithTop ℝ)
    else (((n : ℝ) * Real.sqrt ((n : ℝ) - 1) / ((n : ℝ) - 2) *
            ((S3 : ℝ) / ((S2 : ℝ) * Real.sqrt (S2 : ℝ))) : ℝ) : WithTop ℝ)

/-- The sequence of values rendered and annotated by `describe_skewness`:
`self.data.skew(numeric_only=True).sort_values().round(decimals=3)` — one
skewness per numeric column, sorted ascending (NaN last), then rounded. -/
noncomputable def describe_skewness_values (df : DataFrame) : List (WithTop ℝ) :=
  ((df.numericCols.map (fun c => skewPandas c.optValues)).insertionSort
    (· ≤ ·)).map (WithTop.map round3)

/-- `math.ceil(k ** 0.5)` for a natural `k`. -/
def ceilSqrt (k : ℕ) : ℕ :=
  if Nat.sqrt k * Nat.sqrt k = k then Nat.sqrt k else Nat.sqrt k + 1

/-- `math.ceil(a / b)` for naturals. -/
def natCeilDiv (a b : ℕ) : ℕ :=
  (a + b - 1) / b

/-- The data `basic_overview` prints: the shape and, per column, its name,
dtype and non-null count (`info()`). -/
def basicOverviewOf (df : DataFrame) : (ℕ × ℕ) × List (String × Dtype × ℕ) :=
  ((df.nrows, df.cols.length),
   df.cols.map (fun c => (c.name, c.dtype, c.cells.countP (fun x => decide (x ≠ Cell.na)))))

/-- `Series.mean()`: mean of the present values, NaN when there are none. -/
def colMean (c : Col) : Option ℚ :=
  let p := c.presentVals
  if p.length = 0 then none else some (p.sum / (p.length : ℚ))

/-- `Series.std()`: sample standard deviation of the present values (NaN for
fewer than two of them). -/
noncomputable def colStd (c : Col) : Option ℝ :=
  let p := c.presentVals
  if p.length < 2 then none
  else
    let μ : ℚ := p.sum / (p.length : ℚ)
    some (Real.sqrt ((((p.map (fun x => (x - μ) ^ 2)).sum / ((p.length : ℚ) - 1) : ℚ) : ℝ)))

/-- One row of the `describe()` table printed by `summary_statistics`. -/
structure ColSummary where
  name  : String
  count : ℕ
  mean  : Option ℚ
  std   : Option ℝ
  vmin  : Option ℚ
  q25   : Option ℚ
  q50   : Option ℚ
  q75   : Option ℚ
  vmax  : Option ℚ

/-- The `describe()` table of `summary_statistics`, one row per numeric
column (min and max are the 0- and 1-quantiles of the present values). -/
noncomputable def summaryOf (df : DataFrame) : List ColSummary :=
  df.numericCols.map (fun c =>
    { name := c.name, count := c.presentVals.length, mean := colMean c, std := colStd c,
      vmin := quantileOf c.optValues 0, q25 := quantileOf c.optValues (1/4),
      q50 := quantileOf c.optValues (1/2), q75 := quantileOf c.optValues (3/4),
      vmax := quantileOf c.optValues 1 })

/-- The data one subplot of `numerical_distribution` is drawn from: the
column's values (15 histogram bins) and the vertical mean/median markers. -/
structure NumDistPlot where
  column : String
  values : List (Option ℚ)
  bins   : ℕ
  mean   : Option ℚ
  median : Option ℚ
deriving DecidableEq

/-- `numerical_distribution`: one subplot per numeric column, the grid shape
`ceil(sqrt k) × ceil(k / cols)`, and the indices of the unused axes deleted by
its cleanup loop (here `idx` really is the last column index, so exactly the
grid cells past the last column are removed). -/
def numericalDistributionOf (df : DataFrame) :
    List NumDistPlot × (ℕ × ℕ) × List ℕ :=
  let cols := df.numericCols
  let nc := ceilSqrt cols.length
  let nr := natCeilDiv cols.length nc
  (cols.map (fun c =>
      { column := c.name, values := c.optValues, bins := 15,
        mean := colMean c, median := quantileOf c.optValues (1/2) }),
   (nc, nr),
   List.range' cols.length (nc * nr - cols.length))

/-- The numeric cell pairs of two columns with both entries present
(pandas `corr` uses pairwise-complete observations). -/
def pairedVals (x y : Col) : List (ℚ × ℚ) :=
  (x.cells.zip y.cells).filterMap (fun p =>
    match cellToOpt p.1, cellToOpt p.2 with
    | some a, some b => some (a, b)
    | _, _ => none)

/-- Pearson correlation of a list of pairs, NaN (`none`) when either variance
vanishes or fewer than two pairs remain. -/
noncomputable def pearson (ps : List (ℚ × ℚ)) : Option ℝ :=
  let n : ℚ := (ps.length : ℚ)
  let sx := (ps.map Prod.fst).sum
  let sy := (ps.map Prod.snd).sum
  let vx : ℚ := n * (ps.map (fun p => p.1 ^ 2)).sum - sx ^ 2
  let vy : ℚ := n * (ps.map (fun p => p.2 ^ 2)).sum - sy ^ 2
  let cov : ℚ := n * (ps.map (fun p => p.1 * p.2)).sum - sx * sy
  if ps.length < 2 ∨ vx = 0 ∨ vy = 0 then none
  else some (((cov : ℚ) : ℝ) / (Real.sqrt ((vx : ℚ) : ℝ) * Real.sqrt ((vy : ℚ) : ℝ)))

/-- The correlation matrix handed to the heatmap by `correlation_analysis`. -/
noncomputable def correlationOf (df : DataFrame) :
    List (String × List (String × Option ℝ)) :=
  df.numericCols.map (fun x =>
    (x.name, df.numericCols.map (fun y => (y.name, pearson (pairedVals x y)))))

/-- The data `outlire_detection` hands to `sns.boxplot(data=self.data)`: the
numeric columns and their values. -/
def outlireDetectionOf (df : DataFrame) : List (String × List (Option ℚ)) :=
  df.numericCols.map (fun c => (c.name, c.optValues))

/-- The `EDAAnalyzer` object: its only field is the dataset reference set by
`__init__`; no method assigns any other attribute. -/
structure EDAAnalyzer where
  data : DataFrame

/-- The ten public operations of the analyzer. -/
inductive Op where
  | basic_overview
  | summary_statistics
  | missing_values
  | numerical_distribution
  | describe_skewness
  | categorical_distribution
  | correlation_analysis
  | outlire_detection
  | count_outliers
  | fraud_analysis

/-- The printed/rendered output of one operation. -/
inductive OpOut where
  | overview (v : (ℕ × ℕ) × List (String × Dtype × ℕ))
  | summary (v : List ColSummary)
  | missingReport (v : List (String × ℚ))
  | numDist (v : List NumDistPlot × (ℕ × ℕ) × List ℕ)
  | skewPlot (v : List (WithTop ℝ))
  | catDist (v : Except PyErr (List (String × List (Cell × ℕ)) × List ℕ))
  | corrMatrix (v : List (String × List (String × Option ℝ)))
  | boxPlot (v : List (String × List (Option ℚ)))
  | outlierCounts (v : List (String × ℕ))
  | fraudBins (v : Except PyErr (List (String × ℕ)))

/-- Run one operation of the analyzer: each method reads `self.data`, computes
its output, and leaves the object as it was (the source never assigns to
`self.data` or any other attribute after `__init__`). -/
noncomputable def EDAAnalyzer.run (a : EDAAnalyzer) : Op → OpOut × EDAAnalyzer
  | .basic_overview => (.overview (basicOverviewOf a.data), a)
  | .summary_statistics => (.summary (summaryOf a.data), a)
  | .missing_values => (.missingReport (missing_values a.data), a)
  | .numerical_distribution => (.numDist (numericalDistributionOf a.data), a)
  | .describe_skewness => (.skewPlot (describe_skewness_values a.data), a)
  | .categorical_distribution => (.catDist (categorical_distributionE a.data), a)
  | .correlation_analysis => (.corrMatrix (correlationOf a.data), a)
  | .outlire_detection => (.boxPlot (outlireDetectionOf a.data), a)
  | .count_outliers => (.outlierCounts (count_outliers a.data), a)
  | .fraud_analysis => (.fraudBins (fraud_analysisE a.data), a)

/-- The linear-interpolation percentile, as the specification states it: the
value at rank `p·(n-1)` of the ascending values, interpolating between the
two neighbouring ranks with weight `γ`. -/
def specPercentile (vals : List ℚ) (p : ℚ) : ℚ :=
  let s := sortQ vals
  let h : ℚ := p * ((s.length : ℚ) - 1)
  let γ : ℚ := h - ((⌊h⌋ : ℤ) : ℚ)
  (1 - γ) * s.getD (⌊h⌋).toNat 0 + γ * s.getD (⌈h⌉).toNat 0

/-- The spec's Q1: the linear-interpolation 25th percentile of the column. -/
def specQ1 (c : Col) : ℚ := specPercentile c.presentVals (25/100)

/-- The spec's Q3: the linear-interpolation 75th percentile of the column. -/
def specQ3 (c : Col) : ℚ := specPercentile c.presentVals (75/100)

/-- The spec's `lower_bound = Q1 - 1.5 × IQR`. -/
def specLower (c : Col) : ℚ := specQ1 c - 3/2 * (specQ3 c - specQ1 c)

/-- The spec's `upper_bound = Q3 + 1.5 × IQR`. -/
def specUpper (c : Col) : ℚ := specQ3 c + 3/2 * (specQ3 c - specQ1 c)

/-- The spec's outlier count: the number of rows whose value is strictly below
the lower bound or strictly above the upper bound. -/
def specOutlierCount (c : Col) : ℕ :=
  (c.presentVals.filter (fun v => decide (v < specLower c ∨ specUpper c < v))).length

/-- The spec's §8 scenario column: 100 values uniformly spread over [0,100]
(here 0,1,...,99) plus the two injected values −1000 and 1000. -/
def scenarioCells : List Cell :=
  ((List.range 100).map (fun n => Cell.num (n : ℚ))) ++ [Cell.num (-1000), Cell.num 1000]

/-- The spec's §8 scenario dataset: one numeric column `X`. -/
def scenarioDF : DataFrame :=
  ⟨[⟨"X", Dtype.numeric, scenarioCells⟩]⟩

/-- A dataset holding all four interest columns where the last one,
`ChannelId`, has only two distinct values. -/
def dfCat : DataFrame :=
  ⟨[⟨"CurrencyCode", Dtype.object, [Cell.str "UGX", Cell.str "UGX"]⟩,
    ⟨"ProviderId", Dtype.object, [Cell.str "P1", Cell.str "P2"]⟩,
    ⟨"ProductCategory", Dtype.object, [Cell.str "airtime", Cell.str "data"]⟩,
    ⟨"ChannelId", Dtype.object, [Cell.str "web", Cell.str "app"]⟩]⟩

/-- A dataset whose fraud subset has three rows, one of them with a missing
`Amount`. -/
def dfFraudNa : DataFrame :=
  ⟨[⟨"FraudResult", Dtype.numeric, [Cell.num 1, Cell.num 1, Cell.num 1, Cell.num 0]⟩,
    ⟨"Amount", Dtype.numeric, [Cell.num 10, Cell.num 20, Cell.na, Cell.num 7]⟩]⟩

/-- A dataset whose fraud subset has three rows with distinct present
amounts. -/
def dfFraudW : DataFrame :=
  ⟨[⟨"FraudResult", Dtype.numeric, [Cell.num 1, Cell.num 1, Cell.num 1]⟩,
    ⟨"Amount", Dtype.numeric, [Cell.num 10, Cell.num 20, Cell.num 30]⟩]⟩

/-- A small mixed dataset: a numeric column with one missing value and an
object column with one missing value. -/
def colA : Col :=
  ⟨"A", Dtype.numeric, [Cell.na, Cell.num 1, Cell.num 2, Cell.num 3, Cell.num 4]⟩

/-- The object column of `dfMixed`. -/
def colB : Col :=
  ⟨"B", Dtype.object, [Cell.str "x", Cell.str "y", Cell.na, Cell.str "x", Cell.str "z"]⟩

/-- The mixed dataset used as a concrete input by several witnesses. -/
def dfMixed : DataFrame :=
  ⟨[colA, colB]⟩

/-! ### Generic facts about sorting and interpolation -/

theorem sortQ_length (l : List ℚ) : (sortQ l).length = l.length :=
  (List.perm_insertionSort _ l).length_eq

theorem sortQ_sorted (l : List ℚ) : (sortQ l).Sorted (· ≤ ·) :=
  List.sorted_insertionSort _ l

theorem mem_sortQ {l : List ℚ} {v : ℚ} : v ∈ sortQ l ↔ v ∈ l :=
  (List.perm_insertionSort _ l).mem_iff

theorem sorted_getD_mono {s : List ℚ} (hs : s.Sorted (· ≤ ·)) {i j : ℕ}
    (hij : i ≤ j) (hj : j < s.length) : s.getD i 0 ≤ s.getD j 0 := by
  have hi : i < s.length := lt_of_le_of_lt hij hj
  rw [s.getD_eq_getElem 0 hi, s.getD_eq_getElem 0 hj]
  have := @List.Sorted.rel_get_of_le ℚ (· ≤ ·) _ s hs ⟨i, hi⟩ ⟨j, hj⟩ hij
  simpa using this

theorem sorted_head_le_mem {s : List ℚ} (hs : s.Sorted (· ≤ ·)) {v : ℚ}
    (hv : v ∈ s) : s.getD 0 0 ≤ v := by
  obtain ⟨k, hk, rfl⟩ := List.mem_iff_getElem.mp hv
  rw [s.getD_eq_getElem 0 (Nat.pos_of_ne_zero (by rintro h; rw [h] at hk; omega))]
  have := @List.Sorted.rel_get_of_le ℚ (· ≤ ·) _ s hs
    ⟨0, by omega⟩ ⟨k, hk⟩ (by simp)
  simpa using this

theorem sorted_mem_le_last {s : List ℚ} (hs : s.Sorted (· ≤ ·)) {v : ℚ}
    (hv : v ∈ s) : v ≤ s.getD (s.length - 1) 0 := by
  obtain ⟨k, hk, rfl⟩ := List.mem_iff_getElem.mp hv
  rw [s.getD_eq_getElem 0 (by omega)]
  have := @List.Sorted.rel_get_of_le ℚ (· ≤ ·) _ s hs
    ⟨k, hk⟩ ⟨s.length - 1, by omega⟩ (by simp; omega)
  simpa using this

theorem interp_floor_le {pos : ℚ} (h0 : 0 ≤ pos) :
    (((⌊pos⌋).toNat : ℚ)) ≤ pos := by
  have h1 : ((⌊pos⌋).toNat : ℤ) = ⌊pos⌋ := Int.toNat_of_nonneg (Int.floor_nonneg.mpr h0)
  have h2 : (((⌊pos⌋).toNat : ℚ)) = ((⌊pos⌋ : ℤ) : ℚ) := by exact_mod_cast h1
  rw [h2]
  exact Int.floor_le pos

theorem interp_lt_floor_succ {pos : ℚ} (h0 : 0 ≤ pos) :
    pos < ((⌊pos⌋).toNat : ℚ) + 1 := by
  have h1 : ((⌊pos⌋).toNat : ℤ) = ⌊pos⌋ := Int.toNat_of_nonneg (Int.floor_nonneg.mpr h0)
  have h2 : (((⌊pos⌋).toNat : ℚ)) = ((⌊pos⌋ : ℤ) : ℚ) := by exact_mod_cast h1
  rw [h2]
  exact Int.lt_floor_add_one pos

theorem interp_idx_le {s : List ℚ} {pos : ℚ} (h0 : 0 ≤ pos)
    (h1 : pos ≤ (s.length : ℚ) - 1) : (⌊pos⌋).toNat ≤ s.length - 1 := by
  have hn : (1 : ℚ) ≤ (s.length : ℚ) := by linarith
  have hn1 : 1 ≤ s.length := by exact_mod_cast hn
  have hfl : (⌊pos⌋ : ℤ) ≤ (s.length : ℤ) - 1 := by
    have : (⌊pos⌋ : ℤ) ≤ ⌊(s.length : ℚ) - 1⌋ := Int.floor_le_floor h1
    calc (⌊pos⌋ : ℤ) ≤ ⌊(s.length : ℚ) - 1⌋ := this
    _ = (s.length : ℤ) - 1 := by
        rw [show ((s.length : ℚ) - 1) = (((s.length : ℤ) - 1 : ℤ) : ℚ) by push_cast; ring]
        exact Int.floor_intCast _
  omega

theorem le_interp {s : List ℚ} (hs : s.Sorted (· ≤ ·)) {pos : ℚ}
    (h0 : 0 ≤ pos) (h1 : pos ≤ (s.length : ℚ) - 1) :
    s.getD (⌊pos⌋).toNat 0 ≤ interp s pos := by
  have hidx := interp_idx_le h0 h1
  have hn1 : 1 ≤ s.length := by
    have hn : (1 : ℚ) ≤ (s.length : ℚ) := by linarith
    exact_mod_cast hn
  have hij : (⌊pos⌋).toNat ≤ min ((⌊pos⌋).toNat + 1) (s.length - 1) := by omega
  have hjlt : min ((⌊pos⌋).toNat + 1) (s.length - 1) < s.length := by omega
  have hab : s.getD (⌊pos⌋).toNat 0 ≤ s.getD (min ((⌊pos⌋).toNat + 1) (s.length - 1)) 0 :=
    sorted_getD_mono hs hij hjlt
  have ht : 0 ≤ pos - ((⌊pos⌋).toNat : ℚ) := sub_nonneg.mpr (interp_floor_le h0)
  simp only [interp]
  nlinarith

theorem interp_le {s : List ℚ} (hs : s.Sorted (· ≤ ·)) {pos : ℚ}
    (h0 : 0 ≤ pos) (h1 : pos ≤ (s.length : ℚ) - 1) :
    interp s pos ≤ s.getD (min ((⌊pos⌋).toNat + 1) (s.length - 1)) 0 := by
  have hidx := interp_idx_le h0 h1
  have hn1 : 1 ≤ s.length := by
    have hn : (1 : ℚ) ≤ (s.length : ℚ) := by linarith
    exact_mod_cast hn
  have hij : (⌊pos⌋).toNat ≤ min ((⌊pos⌋).toNat + 1) (s.length - 1) := by omega
  have hjlt : min ((⌊pos⌋).toNat + 1) (s.length - 1) < s.length := by omega
  have hab : s.getD (⌊pos⌋).toNat 0 ≤ s.getD (min ((⌊pos⌋).toNat + 1) (s.length - 1)) 0 :=
    sorted_getD_mono hs hij hjlt
  have ht : pos - ((⌊pos⌋).toNat : ℚ) < 1 := by
    have := interp_lt_floor_succ h0
    linarith
  have ht0 : 0 ≤ pos - ((⌊pos⌋).toNat : ℚ) := sub_nonneg.mpr (interp_floor_le h0)
  simp only [interp]
  nlinarith

theorem head_le_interp {s : List ℚ} (hs : s.Sorted (· ≤ ·)) {pos : ℚ}
    (h0 : 0 ≤ pos) (h1 : pos ≤ (s.length : ℚ) - 1) :
    s.getD 0 0 ≤ interp s pos := by
  refine le_trans ?_ (le_interp hs h0 h1)
  have hidx := interp_idx_le h0 h1
  have hn1 : 1 ≤ s.length := by
    have hn : (1 : ℚ) ≤ (s.length : ℚ) := by linarith
    exact_mod_cast hn
  exact sorted_getD_mono hs (Nat.zero_le _) (by omega)

theorem interp_le_last {s : List ℚ} (hs : s.Sorted (· ≤ ·)) {pos : ℚ}
    (h0 : 0 ≤ pos) (h1 : pos ≤ (s.length : ℚ) - 1) :
    interp s pos ≤ s.getD (s.length - 1) 0 := by
  refine le_trans (interp_le hs h0 h1) ?_
  have hidx := interp_idx_le h0 h1
  have hn1 : 1 ≤ s.length := by
    have hn : (1 : ℚ) ≤ (s.length : ℚ) := by linarith
    exact_mod_cast hn
  exact sorted_getD_mono hs (by omega) (by omega)

theorem interp_zero (s : List ℚ) : interp s 0 = s.getD 0 0 := by
  simp [interp]

theorem interp_last {s : List ℚ} (hn1 : 1 ≤ s.length) :
    interp s ((s.length : ℚ) - 1) = s.getD (s.length - 1) 0 := by
  have hfl : ⌊(s.length : ℚ) - 1⌋ = (s.length : ℤ) - 1 := by
    rw [show ((s.length : ℚ) - 1) = (((s.length : ℤ) - 1 : ℤ) : ℚ) by push_cast; ring]
    exact Int.floor_intCast _
  have htn : (⌊(s.length : ℚ) - 1⌋).toNat = s.length - 1 := by omega
  have hc : ((s.length - 1 : ℕ) : ℚ) = (s.length : ℚ) - 1 := by
    have : ((s.length - 1 : ℕ) : ℤ) = (s.length : ℤ) - 1 := by omega
    exact_mod_cast this
  simp only [interp, htn, hc]
  ring_nf

theorem interp_mono {s : List ℚ} (hs : s.Sorted (· ≤ ·)) {p q : ℚ}
    (hp : 0 ≤ p) (hpq : p ≤ q) (hq : q ≤ (s.length : ℚ) - 1) :
    interp s p ≤ interp s q := by
  have hq0 : 0 ≤ q := le_trans hp hpq
  have hp1 : p ≤ (s.length : ℚ) - 1 := le_trans hpq hq
  have hip : (⌊p⌋).toNat ≤ s.length - 1 := interp_idx_le hp hp1
  have hiq : (⌊q⌋).toNat ≤ s.length - 1 := interp_idx_le hq0 hq
  have hn1 : 1 ≤ s.length := by
    have hn : (1 : ℚ) ≤ (s.length : ℚ) := by linarith
    exact_mod_cast hn
  have hle : (⌊p⌋).toNat ≤ (⌊q⌋).toNat := by
    have := Int.floor_le_floor hpq
    omega
  rcases eq_or_lt_of_le hle with heq | hlt
  · -- same segment: the slope is non-negative
    have hij : (⌊p⌋).toNat ≤ min ((⌊p⌋).toNat + 1) (s.length - 1) := by omega
    have hjlt : min ((⌊p⌋).toNat + 1) (s.length - 1) < s.length := by omega
    have hab : s.getD (⌊p⌋).toNat 0 ≤ s.getD (min ((⌊p⌋).toNat + 1) (s.length - 1)) 0 :=
      sorted_getD_mono hs hij hjlt
    simp only [interp, ← heq]
    nlinarith
  · -- different segments: go through the nodes
    refine le_trans (interp_le hs hp hp1) (le_trans ?_ (le_interp hs hq0 hq))
    exact sorted_getD_mono hs (by omega) (by omega)

theorem interp_eq_lerp {s : List ℚ} {h : ℚ} (h0 : 0 ≤ h)
    (h1 : h ≤ (s.length : ℚ) - 1) :
    interp s h =
      (1 - (h - ((⌊h⌋ : ℤ) : ℚ))) * s.getD (⌊h⌋).toNat 0 +
        (h - ((⌊h⌋ : ℤ) : ℚ)) * s.getD (⌈h⌉).toNat 0 := by
  have hcast : (((⌊h⌋).toNat : ℚ)) = ((⌊h⌋ : ℤ) : ℚ) := by
    have := Int.toNat_of_nonneg (Int.floor_nonneg.mpr h0)
    exact_mod_cast this
  rcases eq_or_lt_of_le (Int.floor_le h) with heq | hlt
  · -- h is an integer: γ = 0 and both indices agree
    have hceil : ⌈h⌉ = ⌊h⌋ := by
      rw [← heq]
      simp
    have hγ : h - ((⌊h⌋ : ℤ) : ℚ) = 0 := by rw [← heq]; simp
    simp only [interp, hceil, hγ, hcast]
    ring
  · -- h is not an integer: the ceiling is the next index and it stays in range
    have hne : h ≠ ((⌊h⌋ : ℤ) : ℚ) := by exact fun hc => absurd hc.symm (ne_of_lt hlt)
    have hceil : ⌈h⌉ = ⌊h⌋ + 1 := by
      rcases Int.fract_eq_zero_or_add_one_sub_ceil h with hf | hc
      · exfalso
        have hsf := Int.self_sub_floor h
        rw [hf] at hsf
        exact hne (by linarith)
      · have hcq : ((⌈h⌉ : ℤ) : ℚ) = ((⌊h⌋ : ℤ) : ℚ) + 1 := by
          have hfr := Int.self_sub_floor h
          rw [hc] at hfr
          linarith
        exact_mod_cast hcq
    have hn1 : 1 ≤ s.length := by
      have hn : (1 : ℚ) ≤ (s.length : ℚ) := by linarith
      exact_mod_cast hn
    have hlt2 : (⌊h⌋ : ℤ) < (s.length : ℤ) - 1 := by
      have hle2 : (⌊h⌋ : ℤ) ≤ (s.length : ℤ) - 1 := by
        have := interp_idx_le h0 h1
        have hnn := Int.floor_nonneg.mpr h0
        omega
      rcases eq_or_lt_of_le hle2 with heq2 | hlt2
      · exfalso
        have : ((⌊h⌋ : ℤ) : ℚ) = (s.length : ℚ) - 1 := by
          rw [heq2]; push_cast; ring
        rw [this] at hlt
        linarith
      · exact hlt2
    have hnn := Int.floor_nonneg.mpr h0
    have hj : min ((⌊h⌋).toNat + 1) (s.length - 1) = (⌈h⌉).toNat := by
      rw [hceil]; omega
    simp only [interp, hj, hcast]
    ring

/-! ### `count_outliers` against the specification (IQR rule) -/

theorem quantileOf_eq_spec (l : List (Option ℚ)) (p : ℚ) (hp0 : 0 ≤ p) (hp1 : p ≤ 1)
    (hne : dropna l ≠ []) :
    quantileOf l p = some (specPercentile (dropna l) p) := by
  have hlen : (sortQ (dropna l)).length ≠ 0 := by
    rw [sortQ_length]
    exact fun hc => hne (List.length_eq_zero.mp hc)
  have hn1 : 1 ≤ (sortQ (dropna l)).length := Nat.pos_of_ne_zero hlen
  have hx : (0:ℚ) ≤ ((sortQ (dropna l)).length : ℚ) - 1 := by
    have hq : (1:ℚ) ≤ ((sortQ (dropna l)).length : ℚ) := by exact_mod_cast hn1
    linarith
  have h0 : 0 ≤ p * (((sortQ (dropna l)).length : ℚ) - 1) := mul_nonneg hp0 hx
  have h1 : p * (((sortQ (dropna l)).length : ℚ) - 1) ≤ ((sortQ (dropna l)).length : ℚ) - 1 :=
    mul_le_of_le_one_left hx hp1
  simp only [quantileOf, specPercentile, if_neg hlen]
  rw [interp_eq_lerp h0 h1]

theorem countP_cells_present (cells : List Cell) (P : Cell → Bool)
    (hna : P Cell.na = false) (hstr : ∀ s, P (Cell.str s) = false) :
    cells.countP P = (dropna (cells.map cellToOpt)).countP (fun v => P (Cell.num v)) := by
  induction cells with
  | nil => rfl
  | cons x t ih =>
    cases x with
    | na => simp [List.countP_cons, hna, dropna, cellToOpt, List.filterMap_cons] at ih ⊢; exact ih
    | num v => simp [List.countP_cons, dropna, cellToOpt, List.filterMap_cons] at ih ⊢; rw [ih]
    | str s => simp [List.countP_cons, hstr, dropna, cellToOpt, List.filterMap_cons] at ih ⊢; exact ih

theorem colOutlierCount_eq_present (c : Col) :
    colOutlierCount c =
      (c.presentVals.filter (fun v =>
        cellBelow (Cell.num v) (colLowerBound c) || cellAbove (Cell.num v) (colUpperBound c))).length := by
  rw [← List.countP_eq_length_filter]
  unfold colOutlierCount Col.presentVals Col.optValues
  exact countP_cells_present _ _
    (by cases hl : colLowerBound c <;> cases hu : colUpperBound c <;> rfl)
    (fun s => by cases hl : colLowerBound c <;> cases hu : colUpperBound c <;> rfl)

theorem mem_count_outliers {df : DataFrame} {c : Col} (hc : c ∈ df.numericCols) :
    (c.name, colOutlierCount c) ∈ count_outliers df :=
  (List.perm_insertionSort _ _).mem_iff.mpr
    (List.mem_map_of_mem (fun c => (c.name, colOutlierCount c)) hc)

/-- C1.  For every dataset and every numeric column with at least one present
value, the cut-offs computed by `count_outliers` are `Q1 - 1.5·IQR` and
`Q3 + 1.5·IQR` with Q1/Q3 the linear-interpolation 25th/75th percentiles of
the column, and the reported outlier count equals the number of rows whose
value is strictly below the lower or strictly above the upper bound. -/
theorem count_outliers_matches_spec (df : DataFrame) (c : Col)
    (hc : c ∈ df.numericCols) (hp : c.presentVals ≠ []) :
    colLowerBound c = some (specLower c) ∧
    colUpperBound c = some (specUpper c) ∧
    colOutlierCount c = specOutlierCount c ∧
    (c.name, specOutlierCount c) ∈ count_outliers df := by
  have h25 : quantileOf c.optValues (1/4) = some (specQ1 c) := by
    have h := quantileOf_eq_spec c.optValues (1/4) (by norm_num) (by norm_num) hp
    rw [h]
    unfold specQ1 Col.presentVals
    norm_num
  have h75 : quantileOf c.optValues (3/4) = some (specQ3 c) := by
    have h := quantileOf_eq_spec c.optValues (3/4) (by norm_num) (by norm_num) hp
    rw [h]
    unfold specQ3 Col.presentVals
    norm_num
  have hlb : colLowerBound c = some (specLower c) := by
    unfold colLowerBound
    rw [h25, h75]
    rfl
  have hub : colUpperBound c = some (specUpper c) := by
    unfold colUpperBound
    rw [h25, h75]
    rfl
  have hcnt : colOutlierCount c = specOutlierCount c := by
    rw [colOutlierCount_eq_present]
    unfold specOutlierCount
    congr 1
    refine List.filter_congr (fun v _ => ?_)
    rw [hlb, hub]
    simp [cellBelow, cellAbove, Bool.decide_or]
  refine ⟨hlb, hub, hcnt, ?_⟩
  rw [← hcnt]
  exact mem_count_outliers hc

/-- C1 witness: the theorem applied to the concrete mixed dataset. -/
theorem count_outliers_matches_spec_w :
    colLowerBound colA = some (specLower colA) ∧
    colUpperBound colA = some (specUpper colA) ∧
    colOutlierCount colA = specOutlierCount colA ∧
    (colA.name, specOutlierCount colA) ∈ count_outliers dfMixed :=
  count_outliers_matches_spec dfMixed colA (by decide) (by decide)

/-- C10.  A missing cell is never included in a column's outlier count: the
count equals the count over the present values only, hence is bounded by the
number of rows with a present value. -/
theorem count_outliers_missing_never_counted (df : DataFrame) (c : Col)
    (hc : c ∈ df.numericCols) :
    colOutlierCount c =
      (c.presentVals.filter (fun v =>
        cellBelow (Cell.num v) (colLowerBound c) || cellAbove (Cell.num v) (colUpperBound c))).length ∧
    colOutlierCount c ≤ c.presentVals.length ∧
    (c.name, colOutlierCount c) ∈ count_outliers df := by
  refine ⟨colOutlierCount_eq_present c, ?_, mem_count_outliers hc⟩
  rw [colOutlierCount_eq_present c]
  exact List.length_filter_le _ _

/-- C10 witness: the theorem applied to the concrete mixed dataset. -/
theorem count_outliers_missing_never_counted_w :
    colOutlierCount colA ≤ colA.presentVals.length ∧
    (colA.name, colOutlierCount colA) ∈ count_outliers dfMixed :=
  ⟨(count_outliers_missing_never_counted dfMixed colA (by decide)).2.1,
   (count_outliers_missing_never_counted dfMixed colA (by decide)).2.2⟩

set_option maxRecDepth 100000 in
unseal Rat.add Rat.mul Rat.inv Rat.sub in
/-- C6.  On the scenario dataset — 100 values uniformly spread over [0,100]
plus injected −1000 and 1000 — `count_outliers` reports exactly 2 outliers
for column `X`. -/
theorem scenario_outlier_count : count_outliers scenarioDF = [("X", 2)] := by
  decide

/-! ### `missing_values` against the specification -/

theorem sum_isnaIndicator (cells : List Cell) :
    (cells.map isnaIndicator).sum = ((cells.countP (fun x => decide (x = Cell.na)) : ℕ) : ℚ) := by
  induction cells with
  | nil => simp
  | cons x t ih =>
    by_cases hx : x = Cell.na
    · simp [isnaIndicator, List.countP_cons, ih, hx]
      ring
    · simp [isnaIndicator, List.countP_cons, ih, hx]

theorem filter_map_eq_filterMap {α β : Type} (l : List α) (g : α → β) (p : β → Bool) :
    (l.map g).filter p = l.filterMap (fun a => if p (g a) then some (g a) else none) := by
  induction l with
  | nil => rfl
  | cons x t ih => by_cases hx : p (g x) <;> simp [hx, ih]

/-- C3.  The missing-value report contains a column exactly when its missing
fraction is strictly positive, and reports `(missing_count / total_rows) * 100`
for it. -/
theorem missing_values_matches_spec (df : DataFrame)
    (hwf : ∀ c ∈ df.cols, c.cells.length = df.nrows) :
    missing_values df = df.cols.filterMap (fun c =>
      if 0 < ((c.cells.countP (fun x => decide (x = Cell.na)) : ℕ) : ℚ) / (df.nrows : ℚ)
      then some (c.name,
        ((c.cells.countP (fun x => decide (x = Cell.na)) : ℕ) : ℚ) / (df.nrows : ℚ) * 100)
      else none) := by
  unfold missing_values
  rw [filter_map_eq_filterMap]
  refine List.filterMap_congr (fun c hc => ?_)
  have hlen := hwf c hc
  have hmean : isnaMean c =
      ((c.cells.countP (fun x => decide (x = Cell.na)) : ℕ) : ℚ) / (df.nrows : ℚ) := by
    unfold isnaMean
    rw [sum_isnaIndicator, hlen]
  simp only [hmean, decide_eq_true_eq]
  by_cases h : 0 < ((c.cells.countP (fun x => decide (x = Cell.na)) : ℕ) : ℚ) / (df.nrows : ℚ)
  · rw [if_pos (by nlinarith), if_pos h]
  · rw [if_neg (fun hc100 => h (by nlinarith)), if_neg h]

/-- C3 witness: the theorem applied to the concrete mixed dataset. -/
theorem missing_values_matches_spec_w :
    missing_values dfMixed = dfMixed.cols.filterMap (fun c =>
      if 0 < ((c.cells.countP (fun x => decide (x = Cell.na)) : ℕ) : ℚ) / (dfMixed.nrows : ℚ)
      then some (c.name,
        ((c.cells.countP (fun x => decide (x = Cell.na)) : ℕ) : ℚ) / (dfMixed.nrows : ℚ) * 100)
      else none) :=
  missing_values_matches_spec dfMixed (by decide)

/-! ### Quantile binning (`qcut`) facts -/

theorem sum_map_add_distrib {α : Type} (l : List α) (g h : α → ℕ) :
    (l.map (fun a => g a + h a)).sum = (l.map g).sum + (l.map h).sum := by
  induction l with
  | nil => rfl
  | cons x t ih =>
    simp only [List.map_cons, List.sum_cons, ih]
    omega

theorem range_indicator_sum {B b0 : ℕ} (h : b0 < B) :
    ((List.range B).map (fun b => if b0 = b then 1 else 0)).sum = 1 := by
  induction B with
  | zero => omega
  | succ n ih =>
    rw [List.range_succ, List.map_append, List.sum_append]
    rcases Nat.lt_or_ge b0 n with hlt | hge
    · have hb0n : b0 ≠ n := by omega
      rw [ih hlt]
      simp [hb0n]
    · have hb0 : b0 = n := by omega
      subst hb0
      have hzero : ((List.range b0).map (fun b => if b0 = b then 1 else 0)).sum = 0 := by
        refine List.sum_eq_zero (fun x hx => ?_)
        obtain ⟨b, hb, rfl⟩ := List.mem_map.mp hx
        have : b < b0 := List.mem_range.mp hb
        simp [Nat.ne_of_gt this]
      rw [hzero]
      simp

theorem countP_partition {α : Type} (l : List α) (f : α → Option ℕ) (B : ℕ)
    (h : ∀ v ∈ l, ∃ b, f v = some b ∧ b < B) :
    ((List.range B).map (fun b => l.countP (fun v => decide (f v = some b)))).sum = l.length := by
  induction l with
  | nil => simp
  | cons x t ih =>
    obtain ⟨b0, hb0, hb0B⟩ := h x (by simp)
    have ht : ∀ v ∈ t, ∃ b, f v = some b ∧ b < B := fun v hv => h v (by simp [hv])
    have hmap : (List.range B).map (fun b => (x :: t).countP (fun v => decide (f v = some b)))
        = (List.range B).map
            (fun b => t.countP (fun v => decide (f v = some b)) + if b0 = b then 1 else 0) := by
      refine List.map_congr_left (fun b _ => ?_)
      rw [List.countP_cons]
      congr 1
      rw [hb0]
      by_cases hbb : b0 = b
      · subst hbb; simp
      · simp [hbb]
    rw [hmap, sum_map_add_distrib, ih ht, range_indicator_sum hb0B, List.length_cons]

theorem sorted_head_eq {s : List ℚ} (hs : s.Sorted (· ≤ ·)) {m : ℚ} (hm : m ∈ s)
    (hall : ∀ x ∈ s, m ≤ x) : s.head? = some m := by
  cases s with
  | nil => cases hm
  | cons a t =>
    simp only [List.head?_cons, Option.some.injEq]
    rcases List.mem_cons.mp hm with rfl | hmt
    · rfl
    · exact le_antisymm ((List.sorted_cons.mp hs).1 m hmt) (hall a (by simp))

theorem dedup_length_le_one {l : List ℚ} {m : ℚ} (h : ∀ v ∈ l, v = m) :
    l.dedup.length ≤ 1 := by
  match hd : l.dedup with
  | [] => simp
  | [a] => simp
  | a :: b :: t =>
    exfalso
    have hnd := l.nodup_dedup
    rw [hd] at hnd
    have ha : a = m := h a (List.mem_dedup.mp (by rw [hd]; simp))
    have hb : b = m := h b (List.mem_dedup.mp (by rw [hd]; simp))
    have hab : a ≠ b := by
      have := List.nodup_cons.mp hnd
      intro hc
      exact this.1 (by rw [hc]; simp)
    exact hab (ha.trans hb.symm)

theorem one_lt_length_of_mem_ne {α : Type} {l : List α} {a b : α}
    (ha : a ∈ l) (hb : b ∈ l) (hab : a ≠ b) : 1 < l.length := by
  cases l with
  | nil => cases ha
  | cons x t =>
    cases t with
    | nil =>
      simp only [List.mem_singleton] at ha hb
      exact absurd (ha.trans hb.symm) hab
    | cons y u =>
      simp only [List.length_cons]
      omega

theorem qcutEdges_sorted (l : List ℚ) : (qcutEdges l).Sorted (· ≤ ·) := by
  unfold qcutEdges
  by_cases hl : l.length = 0
  · simp [hl]
  · rw [if_neg hl]
    refine List.Pairwise.sublist (List.dedup_sublist _) ?_
    rw [List.pairwise_map, List.pairwise_iff_getElem]
    intro i j hi hj hij
    simp only [List.getElem_range, List.length_range] at hi hj ⊢
    have hn1 : 1 ≤ l.length := Nat.pos_of_ne_zero hl
    have hnq : (1:ℚ) ≤ (l.length : ℚ) := by exact_mod_cast hn1
    have hsl : ((sortQ l).length : ℚ) = (l.length : ℚ) := by rw [sortQ_length]
    refine interp_mono (sortQ_sorted l) ?_ ?_ ?_
    · have hiq : (0:ℚ) ≤ (i : ℚ) / 10 := by positivity
      have : (0:ℚ) ≤ (l.length : ℚ) - 1 := by linarith
      exact mul_nonneg hiq this
    · have hij2 : (i : ℚ) ≤ (j : ℚ) := by exact_mod_cast le_of_lt hij
      have : (0:ℚ) ≤ (l.length : ℚ) - 1 := by linarith
      apply mul_le_mul_of_nonneg_right _ this
      linarith
    · rw [hsl]
      have hj10 : (j : ℚ) ≤ 10 := by
        have : j ≤ 10 := by omega
        exact_mod_cast this
      have h01 : (j : ℚ) / 10 ≤ 1 := by linarith
      have : (0:ℚ) ≤ (l.length : ℚ) - 1 := by linarith
      calc (j : ℚ) / 10 * ((l.length : ℚ) - 1) ≤ 1 * ((l.length : ℚ) - 1) :=
            mul_le_mul_of_nonneg_right h01 this
      _ = (l.length : ℚ) - 1 := one_mul _

theorem qcutEdges_length_le (l : List ℚ) : (qcutEdges l).length ≤ 11 := by
  unfold qcutEdges
  by_cases hl : l.length = 0
  · simp [hl]
  · rw [if_neg hl]
    have h1 := (List.dedup_sublist ((List.range 11).map
      (fun i : ℕ => interp (sortQ l) ((i : ℚ) / 10 * ((l.length : ℚ) - 1))))).length_le
    simpa using h1

theorem min_mem_qcutEdges {l : List ℚ} (hl : l.length ≠ 0) :
    (sortQ l).getD 0 0 ∈ qcutEdges l := by
  unfold qcutEdges
  rw [if_neg hl, List.mem_dedup]
  have hmem : interp (sortQ l) (((0:ℕ) : ℚ) / 10 * ((l.length : ℚ) - 1))
      ∈ (List.range 11).map (fun i : ℕ => interp (sortQ l) ((i : ℚ) / 10 * ((l.length : ℚ) - 1))) :=
    List.mem_map_of_mem _ (List.mem_range.mpr (show (0:ℕ) < 11 by omega))
  have hz : (((0:ℕ) : ℚ) / 10 * ((l.length : ℚ) - 1)) = 0 := by norm_num
  rw [hz, interp_zero] at hmem
  exact hmem

theorem max_mem_qcutEdges {l : List ℚ} (hl : l.length ≠ 0) :
    (sortQ l).getD ((sortQ l).length - 1) 0 ∈ qcutEdges l := by
  unfold qcutEdges
  rw [if_neg hl, List.mem_dedup]
  have hn1 : 1 ≤ (sortQ l).length := by rw [sortQ_length]; exact Nat.pos_of_ne_zero hl
  have hmem : interp (sortQ l) (((10:ℕ) : ℚ) / 10 * ((l.length : ℚ) - 1))
      ∈ (List.range 11).map (fun i : ℕ => interp (sortQ l) ((i : ℚ) / 10 * ((l.length : ℚ) - 1))) :=
    List.mem_map_of_mem _ (List.mem_range.mpr (show (10:ℕ) < 11 by omega))
  have hz : (((10:ℕ) : ℚ) / 10 * ((l.length : ℚ) - 1)) = ((sortQ l).length : ℚ) - 1 := by
    rw [sortQ_length]
    norm_num
  rw [hz, interp_last hn1] at hmem
  exact hmem

theorem mem_qcutEdges_bounds {l : List ℚ} (hl : l.length ≠ 0) {e : ℚ}
    (he : e ∈ qcutEdges l) :
    (sortQ l).getD 0 0 ≤ e ∧ e ≤ (sortQ l).getD ((sortQ l).length - 1) 0 := by
  unfold qcutEdges at he
  rw [if_neg hl, List.mem_dedup] at he
  obtain ⟨i, hi, rfl⟩ := List.mem_map.mp he
  have hi11 : i < 11 := by simpa using hi
  have hn1 : 1 ≤ l.length := Nat.pos_of_ne_zero hl
  have hnq : (1:ℚ) ≤ (l.length : ℚ) := by exact_mod_cast hn1
  have hsl : ((sortQ l).length : ℚ) = (l.length : ℚ) := by rw [sortQ_length]
  have hnn : (0:ℚ) ≤ (l.length : ℚ) - 1 := by linarith
  have h0 : 0 ≤ (i : ℚ) / 10 * ((l.length : ℚ) - 1) := by positivity
  have h1 : (i : ℚ) / 10 * ((l.length : ℚ) - 1) ≤ ((sortQ l).length : ℚ) - 1 := by
    rw [hsl]
    have hi10 : (i : ℚ) ≤ 10 := by
      have : i ≤ 10 := by omega
      exact_mod_cast this
    have h01 : (i : ℚ) / 10 ≤ 1 := by linarith
    calc (i : ℚ) / 10 * ((l.length : ℚ) - 1) ≤ 1 * ((l.length : ℚ) - 1) :=
          mul_le_mul_of_nonneg_right h01 hnn
    _ = (l.length : ℚ) - 1 := one_mul _
  exact ⟨head_le_interp (sortQ_sorted l) h0 h1, interp_le_last (sortQ_sorted l) h0 h1⟩

theorem qcutBin_total {l : List ℚ} (hd : 1 < l.dedup.length) {v : ℚ} (hv : v ∈ l) :
    ∃ b, qcutBin (qcutEdges l) v = some b ∧ b < (qcutEdges l).length - 1 := by
  have hl : l.length ≠ 0 := by
    intro hc
    rw [List.length_eq_zero.mp hc] at hv
    cases hv
  have hvs : v ∈ sortQ l := mem_sortQ.mpr hv
  have hmin_le : (sortQ l).getD 0 0 ≤ v := sorted_head_le_mem (sortQ_sorted l) hvs
  have hle_max : v ≤ (sortQ l).getD ((sortQ l).length - 1) 0 :=
    sorted_mem_le_last (sortQ_sorted l) hvs
  have hminm := min_mem_qcutEdges hl
  have hmaxm := max_mem_qcutEdges hl
  have hne : (sortQ l).getD 0 0 ≠ (sortQ l).getD ((sortQ l).length - 1) 0 := by
    intro heq
    have hall : ∀ w ∈ l, w = (sortQ l).getD 0 0 := by
      intro w hw
      have hws : w ∈ sortQ l := mem_sortQ.mpr hw
      have h1 := sorted_head_le_mem (sortQ_sorted l) hws
      have h2 := sorted_mem_le_last (sortQ_sorted l) hws
      rw [← heq] at h2
      linarith
    have := dedup_length_le_one hall
    omega
  have hlt2 : 1 < (qcutEdges l).length := one_lt_length_of_mem_ne hminm hmaxm hne
  have hhead : (qcutEdges l).head? = some ((sortQ l).getD 0 0) :=
    sorted_head_eq (qcutEdges_sorted l) hminm (fun x hx => (mem_qcutEdges_bounds hl hx).1)
  by_cases hvmin : v = (sortQ l).getD 0 0
  · have hids : qcutIds (qcutEdges l) v = 1 := by
      unfold qcutIds
      rw [hhead, hvmin, if_pos rfl]
    refine ⟨0, ?_, by omega⟩
    unfold qcutBin
    rw [hids, if_neg (by omega)]
  · have hcond : ¬((qcutEdges l).head? = some v) := by
      rw [hhead]
      intro hc
      injection hc with hc2
      exact hvmin hc2.symm
    have hids : qcutIds (qcutEdges l) v = (qcutEdges l).countP (fun e => decide (e < v)) := by
      unfold qcutIds
      rw [if_neg hcond]
    have hmin_lt : (sortQ l).getD 0 0 < v :=
      lt_of_le_of_ne hmin_le (fun h => hvmin h.symm)
    have hpos : 0 < (qcutEdges l).countP (fun e => decide (e < v)) :=
      List.countP_pos_iff.mpr ⟨_, hminm, by simpa using hmin_lt⟩
    have hlt_len : (qcutEdges l).countP (fun e => decide (e < v)) < (qcutEdges l).length := by
      rcases lt_or_eq_of_le (List.countP_le_length _) with h | h
      · exact h
      · exfalso
        have hall := List.countP_eq_length.mp h _ hmaxm
        have : (sortQ l).getD ((sortQ l).length - 1) 0 < v := by simpa using hall
        linarith
    refine ⟨qcutIds (qcutEdges l) v - 1, ?_, by omega⟩
    unfold qcutBin
    rw [hids, if_neg (by omega)]

theorem qcutCounts_sum {l : List ℚ} (hd : 1 < l.dedup.length) :
    (qcutCounts l).sum = l.length := by
  unfold qcutCounts
  exact countP_partition l (qcutBin (qcutEdges l)) ((qcutEdges l).length - 1)
    (fun v hv => qcutBin_total hd hv)

theorem truncQ_mono {a b : ℚ} (h : a ≤ b) : truncQ a ≤ truncQ b := by
  unfold truncQ
  by_cases ha : 0 ≤ a <;> by_cases hb : 0 ≤ b
  · rw [if_pos ha, if_pos hb]
    exact Int.floor_mono h
  · exact absurd (le_trans ha h) hb
  · rw [if_neg ha, if_pos hb]
    calc ⌈a⌉ ≤ 0 := Int.ceil_le.mpr (by exact_mod_cast le_of_lt (lt_of_not_ge ha))
    _ ≤ ⌊b⌋ := Int.floor_nonneg.mpr hb
  · rw [if_neg ha, if_neg hb]
    exact Int.ceil_mono h

/-- C2 (amended).  When both columns exist, the fraud subset is non-empty, its
present amounts take at least two distinct values, and the formatted labels are
pairwise distinct, `fraud_analysis` succeeds and partitions the present fraud
amounts into at most 10 quantile bins (duplicate edges dropped): the per-bin
counts sum to the number of fraud rows with a present amount, the edges are
non-decreasing, and each bin's truncated lower label value is at most its
truncated upper label value. -/
theorem fraud_analysis_amended (df : DataFrame)
    (hf : (df.getCol "FraudResult").isSome = true)
    (ha : (df.getCol "Amount").isSome = true)
    (hn : fraudSubsetSize df ≠ 0)
    (hd : 1 < (fraudPresent df).dedup.length)
    (hl : (binLabels (qcutEdges (fraudPresent df))).Nodup) :
    fraud_analysisE df =
      .ok ((binLabels (qcutEdges (fraudPresent df))).zip (qcutCounts (fraudPresent df))) ∧
    (qcutCounts (fraudPresent df)).sum = (fraudPresent df).length ∧
    (qcutCounts (fraudPresent df)).length ≤ 10 ∧
    (qcutEdges (fraudPresent df)).Sorted (· ≤ ·) ∧
    (∀ i, i + 1 < (qcutEdges (fraudPresent df)).length →
      (binEndpoints (qcutEdges (fraudPresent df)) i).1 ≤
        (binEndpoints (qcutEdges (fraudPresent df)) i).2) := by
  refine ⟨?_, qcutCounts_sum hd, ?_, qcutEdges_sorted _, ?_⟩
  · obtain ⟨fc, hfc⟩ := Option.isSome_iff_exists.mp hf
    obtain ⟨ac, hac⟩ := Option.isSome_iff_exists.mp ha
    unfold fraud_analysisE
    rw [hfc, hac]
    rw [if_neg hn, if_pos hl]
  · have h1 := qcutEdges_length_le (fraudPresent df)
    simp only [qcutCounts, List.length_map, List.length_range]
    omega
  · intro i hi
    simp only [binEndpoints]
    exact truncQ_mono (sorted_getD_mono (qcutEdges_sorted _) (by omega) (by omega))

unseal Rat.add Rat.mul Rat.inv Rat.sub in
/-- C2 counterexample: on `dfFraudNa` the fraud subset has 3 rows, but the
per-bin counts of the completed `fraud_analysis` sum to 2 — the row with a
missing `Amount` falls in no bin, so the counts do not sum to N. -/
theorem fraud_counts_cex :
    fraudSubsetSize dfFraudNa = 3 ∧
    (fraud_analysisE dfFraudNa).toOption.map (fun l => (l.map Prod.snd).sum) = some 2 := by
  exact ⟨by decide, by decide⟩

unseal Rat.add Rat.mul Rat.inv Rat.sub in
/-- C2 witness: the amended theorem applied to a concrete dataset with three
fraud rows of distinct present amounts. -/
theorem fraud_analysis_amended_w :
    fraud_analysisE dfFraudW =
      .ok ((binLabels (qcutEdges (fraudPresent dfFraudW))).zip (qcutCounts (fraudPresent dfFraudW))) ∧
    (qcutCounts (fraudPresent dfFraudW)).sum = (fraudPresent dfFraudW).length := by
  have h := fraud_analysis_amended dfFraudW (by decide) (by decide) (by decide)
    (by decide) (by decide)
  exact ⟨h.1, h.2.1⟩

/-! ### Rounding and skewness rendering -/

theorem round_bounds (x : ℝ) : ⌊x⌋ ≤ round x ∧ round x ≤ ⌊x⌋ + 1 := by
  rw [round_eq]
  constructor
  · exact Int.floor_le_floor (by linarith)
  · have h1 : ⌊x + 1/2⌋ ≤ ⌊x + (1:ℤ)⌋ := Int.floor_le_floor (by push_cast; linarith)
    rw [Int.floor_add_int] at h1
    exact h1

theorem rhe_bounds (x : ℝ) : ⌊x⌋ ≤ rhe x ∧ rhe x ≤ ⌊x⌋ + 1 := by
  unfold rhe
  by_cases hx : x - (⌊x⌋ : ℝ) = 1/2
  · rw [if_pos hx]
    rcases Int.even_or_odd ⌊x⌋ with ⟨m, hm⟩ | ⟨m, hm⟩
    · have hr : round (x / 2) = m := by
        rw [round_eq]
        have hx2 : x / 2 + 1/2 = (m : ℝ) + 3/4 := by
          have hxv : x = (⌊x⌋ : ℝ) + 1/2 := by linarith
          rw [hxv, hm]
          push_cast
          ring
        rw [hx2]
        rw [Int.floor_eq_iff]
        constructor
        · linarith
        · linarith
      rw [hr]
      omega
    · have hr : round (x / 2) = m + 1 := by
        rw [round_eq]
        have hx2 : x / 2 + 1/2 = (m : ℝ) + 5/4 := by
          have hxv : x = (⌊x⌋ : ℝ) + 1/2 := by linarith
          rw [hxv, hm]
          push_cast
          ring
        rw [hx2]
        rw [Int.floor_eq_iff]
        constructor
        · push_cast
          linarith
        · push_cast
          linarith
      rw [hr]
      omega
  · rw [if_neg hx]
    exact round_bounds x

theorem rhe_mono {x y : ℝ} (h : x ≤ y) : rhe x ≤ rhe y := by
  rcases lt_or_ge ⌊x⌋ ⌊y⌋ with hf | hf
  · have h1 := (rhe_bounds x).2
    have h2 := (rhe_bounds y).1
    omega
  · have hfe : ⌊x⌋ = ⌊y⌋ := le_antisymm (Int.floor_le_floor h) hf
    by_cases hx : x - (⌊x⌋ : ℝ) = 1/2 <;> by_cases hy : y - (⌊y⌋ : ℝ) = 1/2
    · have hxy : x = y := by
        rw [hfe] at hx
        linarith
      rw [hxy]
    · -- x is a tie, y is strictly above the tie of the same unit interval
      have hyge : 1/2 < y - (⌊y⌋ : ℝ) := by
        have hle : 1/2 ≤ y - (⌊y⌋ : ℝ) := by
          rw [hfe] at hx
          linarith
        exact lt_of_le_of_ne hle (fun hc => hy hc.symm)
      have hry : rhe y = ⌊y⌋ + 1 := by
        unfold rhe
        rw [if_neg hy, round_eq]
        rw [Int.floor_eq_iff]
        have hfl := Int.lt_floor_add_one y
        constructor
        · push_cast; linarith
        · push_cast; linarith
      rw [hry]
      have := (rhe_bounds x).2
      omega
    · -- y is a tie, x is strictly below it
      have hxlt : x - (⌊x⌋ : ℝ) < 1/2 := by
        have hle : x - (⌊x⌋:ℝ) ≤ 1/2 := by
          rw [hfe]
          linarith
        exact lt_of_le_of_ne hle hx
      have hrx : rhe x = ⌊x⌋ := by
        unfold rhe
        rw [if_neg hx, round_eq]
        rw [Int.floor_eq_iff]
        have hfl := Int.floor_le x
        constructor
        · linarith
        · linarith
      rw [hrx, hfe]
      exact (rhe_bounds y).1
    · unfold rhe
      rw [if_neg hx, if_neg hy, round_eq, round_eq]
      exact Int.floor_le_floor (by linarith)

theorem round3_mono {x y : ℝ} (h : x ≤ y) : round3 x ≤ round3 y := by
  unfold round3
  have h1 := rhe_mono (mul_le_mul_of_nonneg_right h (by norm_num : (0:ℝ) ≤ 1000))
  have hc : ((rhe (x*1000) : ℤ) : ℝ) ≤ ((rhe (y*1000) : ℤ) : ℝ) := by exact_mod_cast h1
  linarith

theorem wmap_round3_mono {a b : WithTop ℝ} (h : a ≤ b) :
    WithTop.map round3 a ≤ WithTop.map round3 b := by
  induction a using WithTop.recTopCoe with
  | top =>
    rw [top_le_iff.mp h]
  | coe x =>
    induction b using WithTop.recTopCoe with
    | top =>
      rw [WithTop.map_top]
      exact le_top
    | coe y =>
      rw [WithTop.map_coe, WithTop.map_coe]
      exact WithTop.coe_le_coe.mpr (round3_mono (WithTop.coe_le_coe.mp h))

/-- C4.  The sequence `describe_skewness` renders — the per-numeric-column
skewnesses, sorted ascending and rounded (half-to-even) to 3 decimals — is
sorted ascending, and it is a function of the dataset alone: equal datasets
give exactly the same rounded sequence. -/
theorem describe_skewness_spec (df df2 : DataFrame) (h : df = df2) :
    (describe_skewness_values df).Sorted (· ≤ ·) ∧
    describe_skewness_values df = describe_skewness_values df2 := by
  constructor
  · unfold describe_skewness_values
    exact List.Pairwise.map _ (fun a b hab => wmap_round3_mono hab)
      (List.sorted_insertionSort _ _)
  · rw [h]

/-- C4 witness: the theorem applied to the concrete mixed dataset. -/
theorem describe_skewness_spec_w :
    (describe_skewness_values dfMixed).Sorted (· ≤ ·) ∧
    describe_skewness_values dfMixed = describe_skewness_values dfMixed :=
  describe_skewness_spec dfMixed dfMixed rfl

/-- C5 (code-bug evidence).  On `dfCat`, where the last interest column
`ChannelId` has two categories, the cleanup loop of `categorical_distribution`
deletes axes 2 and 3 — the already-used `ProductCategory` and `ChannelId`
charts — because `range(idx+1, 4)` reads the leaked inner patch-loop index
instead of the outer column index. -/
theorem categorical_removes_used_axes :
    (categorical_distributionE dfCat).toOption.map Prod.snd = some [2, 3] := by
  decide

/-! ### Analyzer state: statelessness and dataset preservation -/

/-- C7.  Every operation leaves the analyzer exactly as it was (no field is
written), and its output is a function of the dataset alone: two analyzers
holding equal datasets produce equal outputs, whatever ran before. -/
theorem analyzer_stateless (a b : EDAAnalyzer) (op : Op) (h : a.data = b.data) :
    (a.run op).1 = (b.run op).1 ∧ (a.run op).2 = a := by
  have hab : a = b := by
    cases a
    cases b
    simpa using h
  subst hab
  cases op <;> exact ⟨rfl, rfl⟩

/-- C7 witness: the theorem applied to one concrete analyzer and operation. -/
theorem analyzer_stateless_w :
    ((EDAAnalyzer.mk dfMixed).run Op.count_outliers).1 =
      ((EDAAnalyzer.mk dfMixed).run Op.count_outliers).1 ∧
    ((EDAAnalyzer.mk dfMixed).run Op.count_outliers).2 = EDAAnalyzer.mk dfMixed :=
  analyzer_stateless (EDAAnalyzer.mk dfMixed) (EDAAnalyzer.mk dfMixed)
    Op.count_outliers rfl

/-- C8.  No operation mutates the dataset: after any operation the analyzer's
dataset — every column, row and cell — is unchanged. -/
theorem analyzer_preserves_dataset (a : EDAAnalyzer) (op : Op) :
    ((a.run op).2).data = a.data := by
  cases op <;> rfl

/-! ### Missing-column failures -/

theorem getCol_eq_none {df : DataFrame} {s : String} (h : s ∉ df.colNames) :
    df.getCol s = none := by
  unfold DataFrame.getCol
  rw [List.find?_eq_none]
  intro c hc heq
  have hname : c.name = s := by simpa using heq
  exact h (hname ▸ List.mem_map_of_mem Col.name hc)

theorem categoricalChartsE_error (df : DataFrame) (cols : List String) (s : String)
    (hs : s ∈ cols) (hn : df.getCol s = none) :
    ∃ e, categoricalChartsE df cols = .error e := by
  induction cols with
  | nil => cases hs
  | cons c rest ih =>
    rcases List.mem_cons.mp hs with rfl | hrest
    · exact ⟨.keyError s, by unfold categoricalChartsE; rw [hn]⟩
    · by_cases hc : (df.getCol c).isSome
      · obtain ⟨col, hcol⟩ := Option.isSome_iff_exists.mp hc
        obtain ⟨e, he⟩ := ih hrest
        refine ⟨e, ?_⟩
        unfold categoricalChartsE
        rw [hcol, he]
      · have hcn : df.getCol c = none := Option.not_isSome_iff_eq_none.mp hc
        exact ⟨.keyError c, by unfold categoricalChartsE; rw [hcn]⟩

/-- C9.  An operation referencing a column the dataset lacks fails with an
uncaught error and produces nothing: `fraud_analysis` without `FraudResult`
raises its KeyError immediately, without `Amount` it raises some error, and
`categorical_distribution` raises when any of its four hardcoded columns is
absent. -/
theorem missing_column_fails (df : DataFrame) :
    ("FraudResult" ∉ df.colNames → fraud_analysisE df = .error (.keyError "FraudResult")) ∧
    ("Amount" ∉ df.colNames → ∃ e, fraud_analysisE df = .error e) ∧
    (∀ s ∈ interestCols, s ∉ df.colNames → ∃ e, categorical_distributionE df = .error e) := by
  refine ⟨?_, ?_, ?_⟩
  · intro h
    unfold fraud_analysisE
    rw [getCol_eq_none h]
  · intro h
    unfold fraud_analysisE
    cases hf : df.getCol "FraudResult" with
    | none => exact ⟨_, rfl⟩
    | some fc =>
      by_cases hn : fraudSubsetSize df = 0
      · rw [if_pos hn]
        exact ⟨_, rfl⟩
      · rw [if_neg hn, getCol_eq_none h]
        exact ⟨_, rfl⟩
  · intro s hs h
    obtain ⟨e, he⟩ := categoricalChartsE_error df interestCols s hs (getCol_eq_none h)
    refine ⟨e, ?_⟩
    unfold categorical_distributionE
    rw [he]

/-- C9 witness: the theorem applied to the empty dataset. -/
theorem missing_column_fails_w :
    fraud_analysisE (DataFrame.mk []) = .error (.keyError "FraudResult") ∧
    (∃ e, categorical_distributionE (DataFrame.mk []) = .error e) :=
  ⟨(missing_column_fails (DataFrame.mk [])).1 (by decide),
   (missing_column_fails (DataFrame.mk [])).2.2 "CurrencyCode" (by decide) (by decide)⟩
